import Mathlib

/-!
Verification development for the configuration substrate of
libsession-util-nodejs: the canonical value-tree codec, the convergent
snapshot merge, construction/key handling, the legacy-group member table
and the community record registry.  The repository ships only the C/C++
interface declarations; every executable definition below is therefore
modelled from the specification document, faithful to its words, and the
theorems settle the frozen claims against those models.
-/

/-- Modelled from the spec: the universal `Value` representation (§3) — a
tagged union of null, boolean, integer, byte-string, ordered list, and
dictionary keyed by byte-strings (keys unique, canonically sorted by raw
byte order).  The C++ implementation of this tree is not under `src/`. -/
inductive Value where
  | null : Value
  | boolean (b : Bool) : Value
  | int (n : Int) : Value
  | bytes (s : List Nat) : Value
  | list (l : List Value) : Value
  | dict (d : List (List Nat × Value)) : Value

/-- Little-endian base-256 digits computed with a structural fuel so that the
definition evaluates by kernel reduction; `natDigits` below ties the knot. -/
def digitsGo : Nat → Nat → List Nat
  | _, 0 => []
  | 0, _ + 1 => []
  | fuel + 1, n + 1 => ((n + 1) % 256) :: digitsGo fuel ((n + 1) / 256)

/-- Little-endian base-256 digits of a natural number (no trailing zero digit). -/
def natDigits (n : Nat) : List Nat := digitsGo n n

theorem digitsGo_eq_digits (fuel n : Nat) (h : n ≤ fuel) :
    digitsGo fuel n = Nat.digits 256 n := by
  induction fuel generalizing n with
  | zero =>
    interval_cases n
    simp [digitsGo]
  | succ fuel ih =>
    match n with
    | 0 => simp [digitsGo]
    | n + 1 =>
      rw [digitsGo, Nat.digits_def' (by norm_num : (1:Nat) < 256) (Nat.succ_pos n)]
      congr 1
      exact ih _ (by
        have hd : (n + 1) / 256 < n + 1 := Nat.div_lt_self (Nat.succ_pos n) (by norm_num)
        omega)

theorem natDigits_eq_digits (n : Nat) : natDigits n = Nat.digits 256 n :=
  digitsGo_eq_digits n n le_rfl

/-- The canonical numeral: minimal base-256 digits followed by the
terminator symbol 256 (a symbol outside the byte range). -/
def natCode (n : Nat) : List Nat := natDigits n ++ [256]

/-- Reads raw digit symbols up to the terminator 256. -/
def parseDigits : List Nat → Option (List Nat × List Nat)
  | [] => none
  | c :: rest =>
    if c = 256 then some ([], rest)
    else if c < 256 then
      match parseDigits rest with
      | some (ds, r) => some (c :: ds, r)
      | none => none
    else none

/-- Parses a canonical numeral: digits must be below 256 and the most
significant digit must be non-zero (rejecting non-minimal forms). -/
def parseNat (l : List Nat) : Option (Nat × List Nat) :=
  match parseDigits l with
  | some (ds, r) => if ds.getLast? ≠ some 0 then some (Nat.ofDigits 256 ds, r) else none
  | none => none

theorem parseDigits_append (ds : List Nat) (rest : List Nat)
    (h : ∀ d ∈ ds, d < 256) :
    parseDigits (ds ++ 256 :: rest) = some (ds, rest) := by
  induction ds with
  | nil => simp [parseDigits]
  | cons d ds ih =>
    have hd : d < 256 := h d (by simp)
    have hds : ∀ x ∈ ds, x < 256 := fun x hx => h x (by simp [hx])
    simp only [List.cons_append, parseDigits, if_neg (by omega : ¬ d = 256), if_pos hd,
      List.append_eq, ih hds]

theorem parseDigits_sound (l ds r : List Nat) (h : parseDigits l = some (ds, r)) :
    (∀ d ∈ ds, d < 256) ∧ ds ++ 256 :: r = l := by
  induction l generalizing ds with
  | nil => simp [parseDigits] at h
  | cons c rest ih =>
    by_cases hc : c = 256
    · subst hc
      simp [parseDigits] at h
      obtain ⟨rfl, rfl⟩ := h
      simp
    · by_cases hlt : c < 256
      · simp only [parseDigits, if_neg hc, if_pos hlt] at h
        match hrec : parseDigits rest with
        | some (ds', r') =>
          rw [hrec] at h
          dsimp only at h
          simp only [Option.some.injEq, Prod.mk.injEq] at h
          obtain ⟨rfl, rfl⟩ := h
          obtain ⟨h1, h2⟩ := ih ds' hrec
          constructor
          · intro d hd
            rcases List.mem_cons.mp hd with rfl | hd
            · exact hlt
            · exact h1 d hd
          · simp [← h2]
        | none => rw [hrec] at h; exact absurd h (by simp)
      · simp [parseDigits, hc, hlt] at h

theorem natDigits_lt (n : Nat) : ∀ d ∈ natDigits n, d < 256 := by
  rw [natDigits_eq_digits]
  intro d hd
  exact Nat.digits_lt_base (by norm_num) hd

theorem natDigits_getLast? (n : Nat) : (natDigits n).getLast? ≠ some 0 := by
  rw [natDigits_eq_digits]
  match h : Nat.digits 256 n with
  | [] => simp
  | d :: ds =>
    have hne : Nat.digits 256 n ≠ [] := by rw [h]; simp
    have hn : n ≠ 0 := by
      intro hn0
      rw [hn0] at h
      simp at h
    have := Nat.getLast_digit_ne_zero 256 hn
    rw [← h, List.getLast?_eq_getLast _ hne]
    simpa using this

theorem parseNat_appended (n : Nat) (rest : List Nat) :
    parseNat (natCode n ++ rest) = some (n, rest) := by
  unfold parseNat natCode
  rw [List.append_assoc, List.cons_append, List.nil_append,
    parseDigits_append _ _ (natDigits_lt n)]
  simp only [if_pos (natDigits_getLast? n)]
  rw [natDigits_eq_digits, Nat.ofDigits_digits]

theorem parseNat_sound (l : List Nat) (n : Nat) (r : List Nat)
    (h : parseNat l = some (n, r)) : natCode n ++ r = l := by
  unfold parseNat at h
  match hd : parseDigits l with
  | some (ds, r') =>
    rw [hd] at h
    dsimp only at h
    by_cases hcan : ds.getLast? ≠ some 0
    · rw [if_pos hcan] at h
      simp only [Option.some.injEq, Prod.mk.injEq] at h
      obtain ⟨rfl, rfl⟩ := h
      obtain ⟨h1, h2⟩ := parseDigits_sound l ds _ hd
      have hds : Nat.digits 256 (Nat.ofDigits 256 ds) = ds :=
        Nat.digits_ofDigits 256 (by norm_num) ds h1 (fun hne h0 =>
          hcan (by rw [List.getLast?_eq_getLast ds hne, h0]))
      rw [← h2]
      unfold natCode
      rw [natDigits_eq_digits, hds]
      simp
    · rw [if_neg hcan] at h
      exact absurd h (by simp)
  | none => rw [hd] at h; exact absurd h (by simp)

/-- Signed integer encoding: a sign symbol (0 for non-negative, 1 for strictly
negative) followed by the canonical numeral of the magnitude. -/
def intCode (i : Int) : List Nat :=
  if i < 0 then 1 :: natCode i.natAbs else 0 :: natCode i.toNat

/-- Parses a canonical signed integer; a negative zero is rejected as
non-canonical. -/
def parseInt (l : List Nat) : Option (Int × List Nat) :=
  match l with
  | 0 :: r =>
    match parseNat r with
    | some (n, r') => some ((n : Int), r')
    | none => none
  | 1 :: r =>
    match parseNat r with
    | some (n, r') => if n = 0 then none else some (-(n : Int), r')
    | none => none
  | _ => none

theorem parseInt_appended (i : Int) (rest : List Nat) :
    parseInt (intCode i ++ rest) = some (i, rest) := by
  unfold intCode
  by_cases hi : i < 0
  · rw [if_pos hi]
    simp only [List.cons_append, parseInt, parseNat_appended]
    rw [if_neg (by omega : ¬ i.natAbs = 0)]
    congr 2
    omega
  · rw [if_neg hi]
    simp only [List.cons_append, parseInt, parseNat_appended]
    congr 2
    omega

theorem parseInt_sound (l : List Nat) (i : Int) (r : List Nat)
    (h : parseInt l = some (i, r)) : intCode i ++ r = l := by
  match l with
  | 0 :: rest =>
    simp only [parseInt] at h
    match hn : parseNat rest with
    | some (n, r') =>
      rw [hn] at h
      dsimp only at h
      simp only [Option.some.injEq, Prod.mk.injEq] at h
      obtain ⟨rfl, rfl⟩ := h
      have := parseNat_sound rest n _ hn
      unfold intCode
      rw [if_neg (by omega : ¬ (n : Int) < 0)]
      simp only [List.cons_append, Int.toNat_natCast]
      rw [this]
    | none => rw [hn] at h; exact absurd h (by simp)
  | 1 :: rest =>
    simp only [parseInt] at h
    match hn : parseNat rest with
    | some (n, r') =>
      rw [hn] at h
      dsimp only at h
      by_cases h0 : n = 0
      · rw [if_pos h0] at h; exact absurd h (by simp)
      · rw [if_neg h0] at h
        simp only [Option.some.injEq, Prod.mk.injEq] at h
        obtain ⟨rfl, rfl⟩ := h
        have := parseNat_sound rest n _ hn
        unfold intCode
        rw [if_pos (by omega : -(n : Int) < 0)]
        simp only [List.cons_append]
        rw [show (-(n : Int)).natAbs = n by omega, this]
    | none => rw [hn] at h; exact absurd h (by simp)
  | [] => simp [parseInt] at h
  | (m + 2) :: rest => simp [parseInt] at h

/-- Length-prefixed byte string: canonical numeral for the length followed by
the raw bytes, each required to be below 256. -/
def bytesCode (s : List Nat) : List Nat := natCode s.length ++ s

/-- Parses a length-prefixed byte string, rejecting truncated input and
out-of-range byte symbols. -/
def parseBytes (l : List Nat) : Option (List Nat × List Nat) :=
  match parseNat l with
  | some (n, r) =>
    if n ≤ r.length ∧ (r.take n).all (· < 256) then some (r.take n, r.drop n) else none
  | none => none

theorem parseBytes_appended (s : List Nat) (rest : List Nat) (hs : s.all (· < 256)) :
    parseBytes (bytesCode s ++ rest) = some (s, rest) := by
  unfold parseBytes bytesCode
  rw [List.append_assoc, parseNat_appended]
  dsimp only
  rw [List.take_left, List.drop_left]
  rw [if_pos ⟨by simp, hs⟩]

theorem parseBytes_sound (l : List Nat) (s r : List Nat)
    (h : parseBytes l = some (s, r)) :
    bytesCode s ++ r = l ∧ s.all (· < 256) := by
  unfold parseBytes at h
  match hn : parseNat l with
  | some (n, r0) =>
    rw [hn] at h
    dsimp only at h
    by_cases hok : n ≤ r0.length ∧ (r0.take n).all (· < 256)
    · rw [if_pos hok] at h
      simp only [Option.some.injEq, Prod.mk.injEq] at h
      obtain ⟨rfl, rfl⟩ := h
      have hlen : (r0.take n).length = n := List.length_take_of_le hok.1
      have hl := parseNat_sound l n r0 hn
      constructor
      · rw [← hl]
        unfold bytesCode
        rw [hlen]
        simp [List.take_append_drop]
      · exact hok.2
    · rw [if_neg hok] at h; exact absurd h (by simp)
  | none => rw [hn] at h; exact absurd h (by simp)

/-- Strict lexicographic raw-byte order on dictionary keys. -/
def keyLtb : List Nat → List Nat → Bool
  | [], [] => false
  | [], _ :: _ => true
  | _ :: _, [] => false
  | a :: as, b :: bs => if a < b then true else if b < a then false else keyLtb as bs

mutual
/-- Modelled from the spec: `encode(tree) -> bytes` (§4.1) — deterministic,
dictionary keys in ascending raw-byte order, lists in given order, integers
in a minimal (unique) encoding, byte-strings length-prefixed.  The Codec
implementation is not under `src/`. -/
def encodeVal : Value → List Nat
  | .null => [0]
  | .boolean b => [1, if b then 1 else 0]
  | .int i => 2 :: intCode i
  | .bytes s => 3 :: bytesCode s
  | .list l => 4 :: (natCode l.length ++ encodeList l)
  | .dict d => 5 :: (natCode d.length ++ encodeDict d)

def encodeList : List Value → List Nat
  | [] => []
  | v :: vs => encodeVal v ++ encodeList vs

def encodeDict : List (List Nat × Value) → List Nat
  | [] => []
  | (k, v) :: kvs => bytesCode k ++ encodeVal v ++ encodeDict kvs
end

mutual
/-- Canonical well-formedness of a tree (§3 invariants): byte symbols below
256 everywhere and dictionary keys strictly ascending in raw-byte order;
`validDict` threads the previously seen key through the chain. -/
def validVal : Value → Bool
  | .null => true
  | .boolean _ => true
  | .int _ => true
  | .bytes s => s.all (· < 256)
  | .list l => validList l
  | .dict d => validDict none d

def validList : List Value → Bool
  | [] => true
  | v :: vs => validVal v && validList vs

def validDict : Option (List Nat) → List (List Nat × Value) → Bool
  | _, [] => true
  | prev, (k, v) :: kvs =>
    k.all (· < 256) &&
      (match prev with | none => true | some p => keyLtb p k) &&
      validVal v && validDict (some k) kvs
end

mutual
/-- Nesting depth of a tree, used as the decoder fuel bound. -/
def vdepth : Value → Nat
  | .null | .boolean _ | .int _ | .bytes _ => 1
  | .list l => ldepth l + 1
  | .dict d => ddepth d + 1

def ldepth : List Value → Nat
  | [] => 0
  | v :: vs => max (vdepth v) (ldepth vs)

def ddepth : List (List Nat × Value) → Nat
  | [] => 0
  | (_, v) :: kvs => max (vdepth v) (ddepth kvs)
end

mutual
/-- Modelled from the spec: `decode(bytes) -> tree` (§4.1) — fails on
truncation, malformed length prefixes, and on any byte sequence that is not
the unique canonical encoding of its decoded value.  The fuel argument
bounds the nesting depth; the wrapper `decode` supplies a sufficient fuel. -/
def decodeVal : Nat → List Nat → Option (Value × List Nat)
  | 0, _ => none
  | fuel + 1, l =>
    match l with
    | 0 :: r => some (.null, r)
    | 1 :: 0 :: r => some (.boolean false, r)
    | 1 :: 1 :: r => some (.boolean true, r)
    | 2 :: r =>
      match parseInt r with
      | some (i, r') => some (.int i, r')
      | none => none
    | 3 :: r =>
      match parseBytes r with
      | some (s, r') => some (.bytes s, r')
      | none => none
    | 4 :: r =>
      match parseNat r with
      | some (n, r') =>
        match decodeList fuel n r' with
        | some (vs, r'') => some (.list vs, r'')
        | none => none
      | none => none
    | 5 :: r =>
      match parseNat r with
      | some (n, r') =>
        match decodeDict fuel n none r' with
        | some (kvs, r'') => some (.dict kvs, r'')
        | none => none
      | none => none
    | _ => none
termination_by fuel _ => (fuel, 0)

def decodeList : Nat → Nat → List Nat → Option (List Value × List Nat)
  | _, 0, l => some ([], l)
  | fuel, n + 1, l =>
    match decodeVal fuel l with
    | some (v, r) =>
      match decodeList fuel n r with
      | some (vs, r') => some (v :: vs, r')
      | none => none
    | none => none
termination_by fuel n _ => (fuel, n + 1)

def decodeDict :
    Nat → Nat → Option (List Nat) → List Nat →
      Option (List (List Nat × Value) × List Nat)
  | _, 0, _, l => some ([], l)
  | fuel, n + 1, prev, l =>
    match parseBytes l with
    | some (k, r) =>
      if (match prev with | none => true | some p => keyLtb p k) then
        match decodeVal fuel r with
        | some (v, r') =>
          match decodeDict fuel n (some k) r' with
          | some (kvs, r'') => some ((k, v) :: kvs, r'')
          | none => none
        | none => none
      else none
    | none => none
termination_by fuel n _ _ => (fuel, n + 1)
end

/-- The byte-level encoder of the Codec. -/
def encode : Value → List Nat := encodeVal

/-- The byte-level decoder of the Codec: a decode succeeds only when the
whole input is consumed. -/
def decode (b : List Nat) : Option Value :=
  match decodeVal (b.length + 1) b with
  | some (v, []) => some v
  | _ => none

theorem vdepth_pos (v : Value) : 1 ≤ vdepth v := by
  match v with
  | .null | .boolean _ | .int _ | .bytes _ => simp [vdepth]
  | .list l => simp [vdepth]
  | .dict d => simp [vdepth]

mutual
theorem vdepth_le_encode (v : Value) : vdepth v ≤ (encodeVal v).length := by
  match v with
  | .null => simp [vdepth, encodeVal]
  | .boolean b => simp [vdepth, encodeVal]
  | .int i => simp [vdepth, encodeVal]
  | .bytes s => simp [vdepth, encodeVal]
  | .list l =>
    have h := ldepth_le_encode l
    simp only [vdepth, encodeVal, List.length_cons, List.length_append]
    omega
  | .dict d =>
    have h := ddepth_le_encode d
    simp only [vdepth, encodeVal, List.length_cons, List.length_append]
    omega

theorem ldepth_le_encode (l : List Value) : ldepth l ≤ (encodeList l).length := by
  match l with
  | [] => simp [ldepth, encodeList]
  | v :: vs =>
    have h1 := vdepth_le_encode v
    have h2 := ldepth_le_encode vs
    simp only [ldepth, encodeList, List.length_append]
    omega

theorem ddepth_le_encode (d : List (List Nat × Value)) :
    ddepth d ≤ (encodeDict d).length := by
  match d with
  | [] => simp [ddepth, encodeDict]
  | (k, v) :: kvs =>
    have h1 := vdepth_le_encode v
    have h2 := ddepth_le_encode kvs
    simp only [ddepth, encodeDict, List.length_append]
    omega
end

theorem decodeList_appended (fuel : Nat)
    (H : ∀ v rest, validVal v = true → vdepth v ≤ fuel →
      decodeVal fuel (encodeVal v ++ rest) = some (v, rest)) :
    ∀ vs rest, validList vs = true → ldepth vs ≤ fuel →
      decodeList fuel vs.length (encodeList vs ++ rest) = some (vs, rest) := by
  intro vs
  induction vs with
  | nil => intro rest _ _; simp [encodeList, decodeList]
  | cons v vs ih =>
    intro rest hval hd
    simp only [validList, Bool.and_eq_true] at hval
    simp only [ldepth, max_le_iff] at hd
    simp only [encodeList, List.length_cons, List.append_assoc]
    simp only [decodeList]
    rw [H v _ hval.1 hd.1]
    dsimp only
    rw [ih _ hval.2 hd.2]

theorem decodeDict_appended (fuel : Nat)
    (H : ∀ v rest, validVal v = true → vdepth v ≤ fuel →
      decodeVal fuel (encodeVal v ++ rest) = some (v, rest)) :
    ∀ d prev rest, validDict prev d = true → ddepth d ≤ fuel →
      decodeDict fuel d.length prev (encodeDict d ++ rest) = some (d, rest) := by
  intro d
  induction d with
  | nil => intro prev rest _ _; simp [encodeDict, decodeDict]
  | cons kv kvs ih =>
    obtain ⟨k, v⟩ := kv
    intro prev rest hval hd
    simp only [validDict, Bool.and_eq_true] at hval
    obtain ⟨⟨⟨hk, hprev⟩, hv⟩, hrest⟩ := hval
    simp only [ddepth, max_le_iff] at hd
    simp only [encodeDict, List.length_cons, List.append_assoc]
    simp only [decodeDict]
    rw [parseBytes_appended k _ hk]
    simp only [hprev, if_true]
    rw [H v _ hv hd.1]
    dsimp only
    rw [ih (some k) _ hrest hd.2]

theorem decodeVal_encodeVal :
    ∀ fuel v rest, validVal v = true → vdepth v ≤ fuel →
      decodeVal fuel (encodeVal v ++ rest) = some (v, rest) := by
  intro fuel
  induction fuel with
  | zero =>
    intro v rest _ hd
    have := vdepth_pos v
    omega
  | succ fuel ih =>
    intro v rest hval hd
    match v with
    | .null => simp [encodeVal, decodeVal]
    | .boolean b => cases b <;> simp [encodeVal, decodeVal]
    | .int i =>
      simp only [encodeVal, List.cons_append, decodeVal]
      rw [parseInt_appended]
    | .bytes s =>
      simp only [encodeVal, List.cons_append, decodeVal]
      rw [parseBytes_appended s _ (by simpa [validVal] using hval)]
    | .list l =>
      simp only [encodeVal, List.cons_append, List.append_assoc, decodeVal]
      rw [parseNat_appended]
      dsimp only
      have hl : validList l = true := by simpa [validVal] using hval
      have hdl : ldepth l ≤ fuel := by
        simp only [vdepth] at hd
        omega
      rw [decodeList_appended fuel ih l _ hl hdl]
    | .dict d =>
      simp only [encodeVal, List.cons_append, List.append_assoc, decodeVal]
      rw [parseNat_appended]
      dsimp only
      have hdv : validDict none d = true := by simpa [validVal] using hval
      have hdd : ddepth d ≤ fuel := by
        simp only [vdepth] at hd
        omega
      rw [decodeDict_appended fuel ih d none _ hdv hdd]

theorem decode_encode (v : Value) (hval : validVal v = true) :
    decode (encode v) = some v := by
  unfold decode encode
  have hlen : vdepth v ≤ (encodeVal v).length + 1 := by
    have := vdepth_le_encode v
    omega
  have h := decodeVal_encodeVal ((encodeVal v).length + 1) v [] hval hlen
  rw [List.append_nil] at h
  rw [h]

theorem decodeList_sound (fuel : Nat)
    (H : ∀ l v r, decodeVal fuel l = some (v, r) →
      encodeVal v ++ r = l ∧ validVal v = true) :
    ∀ n l vs r, decodeList fuel n l = some (vs, r) →
      encodeList vs ++ r = l ∧ validList vs = true ∧ vs.length = n := by
  intro n
  induction n with
  | zero =>
    intro l vs r h
    simp [decodeList] at h
    obtain ⟨rfl, rfl⟩ := h
    simp [encodeList, validList]
  | succ n ih =>
    intro l vs r h
    simp only [decodeList] at h
    match hv : decodeVal fuel l with
    | some (v, r0) =>
      rw [hv] at h
      dsimp only at h
      match hl : decodeList fuel n r0 with
      | some (vs0, r1) =>
        rw [hl] at h
        dsimp only at h
        simp only [Option.some.injEq, Prod.mk.injEq] at h
        obtain ⟨rfl, rfl⟩ := h
        obtain ⟨he1, hv1⟩ := H l v r0 hv
        obtain ⟨he2, hv2, hn⟩ := ih r0 vs0 r1 hl
        refine ⟨?_, ?_, ?_⟩
        · rw [← he1, ← he2]
          simp [encodeList]
        · simp [validList, hv1, hv2]
        · simp [hn]
      | none => rw [hl] at h; exact absurd h (by simp)
    | none => rw [hv] at h; exact absurd h (by simp)

theorem decodeDict_sound (fuel : Nat)
    (H : ∀ l v r, decodeVal fuel l = some (v, r) →
      encodeVal v ++ r = l ∧ validVal v = true) :
    ∀ n prev l kvs r, decodeDict fuel n prev l = some (kvs, r) →
      encodeDict kvs ++ r = l ∧ validDict prev kvs = true ∧ kvs.length = n := by
  intro n
  induction n with
  | zero =>
    intro prev l kvs r h
    simp [decodeDict] at h
    obtain ⟨rfl, rfl⟩ := h
    simp [encodeDict, validDict]
  | succ n ih =>
    intro prev l kvs r h
    simp only [decodeDict] at h
    match hb : parseBytes l with
    | some (k, r0) =>
      rw [hb] at h
      dsimp only at h
      split at h
      case isTrue hp =>
        match hv : decodeVal fuel r0 with
        | some (v, r1) =>
          rw [hv] at h
          dsimp only at h
          match hrec : decodeDict fuel n (some k) r1 with
          | some (kvs0, r2) =>
            rw [hrec] at h
            dsimp only at h
            simp only [Option.some.injEq, Prod.mk.injEq] at h
            obtain ⟨rfl, rfl⟩ := h
            obtain ⟨hbl, hk⟩ := parseBytes_sound l k r0 hb
            obtain ⟨he1, hv1⟩ := H r0 v r1 hv
            obtain ⟨he2, hv2, hn⟩ := ih (some k) r1 kvs0 r2 hrec
            refine ⟨?_, ?_, ?_⟩
            · rw [← hbl, ← he1, ← he2]
              simp [encodeDict]
            · simp [validDict, hk, hp, hv1, hv2]
            · simp [hn]
          | none => rw [hrec] at h; exact absurd h (by simp)
        | none => rw [hv] at h; exact absurd h (by simp)
      case isFalse hp => exact absurd h (by simp)
    | none => rw [hb] at h; exact absurd h (by simp)

theorem decodeVal_sound :
    ∀ fuel l v r, decodeVal fuel l = some (v, r) →
      encodeVal v ++ r = l ∧ validVal v = true := by
  intro fuel
  induction fuel with
  | zero => intro l v r h; simp [decodeVal] at h
  | succ fuel ih =>
    intro l v r h
    match l with
    | [] => simp [decodeVal] at h
    | 0 :: rest =>
      simp [decodeVal] at h
      obtain ⟨rfl, rfl⟩ := h
      simp [encodeVal, validVal]
    | 1 :: [] => simp [decodeVal] at h
    | 1 :: 0 :: rest =>
      simp [decodeVal] at h
      obtain ⟨rfl, rfl⟩ := h
      simp [encodeVal, validVal]
    | 1 :: 1 :: rest =>
      simp [decodeVal] at h
      obtain ⟨rfl, rfl⟩ := h
      simp [encodeVal, validVal]
    | 1 :: (c + 2) :: rest => simp [decodeVal] at h
    | 2 :: rest =>
      simp only [decodeVal] at h
      match hi : parseInt rest with
      | some (i, r0) =>
        rw [hi] at h
        dsimp only at h
        simp only [Option.some.injEq, Prod.mk.injEq] at h
        obtain ⟨rfl, rfl⟩ := h
        have := parseInt_sound rest i r0 hi
        constructor
        · rw [← this]
          simp [encodeVal]
        · simp [validVal]
      | none => rw [hi] at h; exact absurd h (by simp)
    | 3 :: rest =>
      simp only [decodeVal] at h
      match hbs : parseBytes rest with
      | some (s, r0) =>
        rw [hbs] at h
        dsimp only at h
        simp only [Option.some.injEq, Prod.mk.injEq] at h
        obtain ⟨rfl, rfl⟩ := h
        obtain ⟨he, hs⟩ := parseBytes_sound rest s r0 hbs
        constructor
        · rw [← he]
          simp [encodeVal]
        · simp [validVal, hs]
      | none => rw [hbs] at h; exact absurd h (by simp)
    | 4 :: rest =>
      simp only [decodeVal] at h
      match hn : parseNat rest with
      | some (n, r0) =>
        rw [hn] at h
        dsimp only at h
        match hl : decodeList fuel n r0 with
        | some (vs, r1) =>
          rw [hl] at h
          dsimp only at h
          simp only [Option.some.injEq, Prod.mk.injEq] at h
          obtain ⟨rfl, rfl⟩ := h
          obtain ⟨he, hv, hlen⟩ := decodeList_sound fuel ih n r0 vs r1 hl
          have hnr := parseNat_sound rest n r0 hn
          constructor
          · rw [show encodeVal (Value.list vs) = 4 :: (natCode vs.length ++ encodeList vs)
              from rfl, hlen]
            rw [← hnr, ← he]
            simp
          · simp [validVal, hv]
        | none => rw [hl] at h; exact absurd h (by simp)
      | none => rw [hn] at h; exact absurd h (by simp)
    | 5 :: rest =>
      simp only [decodeVal] at h
      match hn : parseNat rest with
      | some (n, r0) =>
        rw [hn] at h
        dsimp only at h
        match hd : decodeDict fuel n none r0 with
        | some (kvs, r1) =>
          rw [hd] at h
          dsimp only at h
          simp only [Option.some.injEq, Prod.mk.injEq] at h
          obtain ⟨rfl, rfl⟩ := h
          obtain ⟨he, hv, hlen⟩ := decodeDict_sound fuel ih n none r0 kvs r1 hd
          have hnr := parseNat_sound rest n r0 hn
          constructor
          · rw [show encodeVal (Value.dict kvs) = 5 :: (natCode kvs.length ++ encodeDict kvs)
              from rfl, hlen]
            rw [← hnr, ← he]
            simp
          · simp [validVal, hv]
        | none => rw [hd] at h; exact absurd h (by simp)
      | none => rw [hn] at h; exact absurd h (by simp)
    | (c + 6) :: rest => simp [decodeVal] at h

theorem decode_sound (b : List Nat) (v : Value) (h : decode b = some v) :
    encode v = b ∧ validVal v = true := by
  unfold decode at h
  match hd : decodeVal (b.length + 1) b with
  | some (v', r) =>
    rw [hd] at h
    match r with
    | [] =>
      dsimp only at h
      simp only [Option.some.injEq] at h
      obtain ⟨he, hv⟩ := decodeVal_sound _ b v' [] hd
      subst h
      exact ⟨by rw [← he]; simp [encode], hv⟩
    | _ :: _ => dsimp only at h; exact absurd h (by simp)
  | none => rw [hd] at h; exact absurd h (by simp)

/-- C2: the codec is a canonical bijection.  Whenever `decode` succeeds on a
byte string it returns a tree whose canonical encoding is exactly that byte
string — so `encode (decode b) = b` for canonical `b`, and decoding fails on
every byte sequence that is not the unique canonical encoding of its decoded
value, truncations and malformed length prefixes included.  Conversely,
decoding the encoding of any canonically well-formed tree `T` returns `T`. -/
theorem codec_canonical_bijection :
    (∀ b v, decode b = some v → encode v = b) ∧
    (∀ T, validVal T = true → decode (encode T) = some T) :=
  ⟨fun b v h => (decode_sound b v h).1, fun T h => decode_encode T h⟩

theorem codec_canonical_bijection_witness :
    validVal (Value.dict [([1], Value.int (-5)), ([2], Value.bytes [7, 255])]) = true ∧
    decode (encode (Value.dict [([1], Value.int (-5)), ([2], Value.bytes [7, 255])])) =
      some (Value.dict [([1], Value.int (-5)), ([2], Value.bytes [7, 255])]) :=
  ⟨by decide, codec_canonical_bijection.2 _ (by decide)⟩

/-- Modelled from the spec: a hash-identified snapshot (§3) — the content
hash of the canonical plaintext tree it represents, its topological depth in
the snapshot DAG (the implicit rank of §4.4 step 3), the hashes of the
snapshots it supersedes, and its decoded tree.  The MergeEngine
implementation is not under `src/`. -/
structure Snapshot where
  hash : Nat
  depth : Nat
  parents : List Nat
  tree : Value

/-- Rank order of §4.4 step 3: topological depth first, ties broken by hash. -/
def rankLt (s t : Snapshot) : Prop :=
  s.depth < t.depth ∨ (s.depth = t.depth ∧ s.hash < t.hash)

instance (s t : Snapshot) : Decidable (rankLt s t) := by
  unfold rankLt
  infer_instance

theorem rankLt_irrefl (s : Snapshot) : ¬ rankLt s s := by
  unfold rankLt
  omega

theorem rankLt_trans {a b c : Snapshot} (h1 : rankLt a b) (h2 : rankLt b c) :
    rankLt a c := by
  unfold rankLt at *
  omega

theorem rankLt_asymm {s t : Snapshot} (h : rankLt s t) : ¬ rankLt t s := by
  unfold rankLt at *
  omega

theorem rankLt_tight {s t : Snapshot} (h1 : ¬ rankLt s t) (h2 : ¬ rankLt t s) :
    s.depth = t.depth ∧ s.hash = t.hash := by
  unfold rankLt at *
  omega

/-- Modelled from the spec (§4.4 step 2): the fresh antichain of heads — the
snapshots of the pool that are not named as a parent by any pool member. -/
def headsOf (l : List Snapshot) : List Snapshot :=
  l.filter (fun s => !(l.any (fun t => t.parents.contains s.hash)))

theorem headsOf_mem (l : List Snapshot) (s : Snapshot) :
    s ∈ headsOf l ↔ s ∈ l ∧ ∀ t ∈ l, s.hash ∉ t.parents := by
  simp [headsOf, List.mem_filter]

theorem headsOf_congr (l₁ l₂ : List Snapshot) (hset : ∀ s, s ∈ l₁ ↔ s ∈ l₂) :
    ∀ s, s ∈ headsOf l₁ ↔ s ∈ headsOf l₂ := by
  intro s
  rw [headsOf_mem, headsOf_mem]
  constructor
  · rintro ⟨h1, h2⟩
    exact ⟨(hset s).mp h1, fun t ht => h2 t ((hset t).mpr ht)⟩
  · rintro ⟨h1, h2⟩
    exact ⟨(hset s).mpr h1, fun t ht => h2 t ((hset t).mp ht)⟩

/-- Modelled from the spec (§4.4 step 3): merges two canonically key-sorted
dictionaries key-by-key — a key present in both sides has its values merged
by `f` (the higher-ranked side first), a key present in only one side
survives unchanged.  The fuel rides the combined entry count and keeps the
definition computable by kernel reduction. -/
def mergeDictsWith (f : Value → Value → Value) :
    Nat → List (List Nat × Value) → List (List Nat × Value) → List (List Nat × Value)
  | 0, d1, _ => d1
  | _ + 1, [], d2 => d2
  | _ + 1, (k1, v1) :: r1, [] => (k1, v1) :: r1
  | fuel + 1, (k1, v1) :: r1, (k2, v2) :: r2 =>
    if keyLtb k1 k2 then (k1, v1) :: mergeDictsWith f fuel r1 ((k2, v2) :: r2)
    else if keyLtb k2 k1 then (k2, v2) :: mergeDictsWith f fuel ((k1, v1) :: r1) r2
    else (k1, f v1 v2) :: mergeDictsWith f fuel r1 r2

/-- Modelled from the spec (§4.4 step 3): field-granularity last-writer-wins
between the tree of a higher-ranked head (first argument) and a lower-ranked
one — dictionaries merge field-by-field, recursing into nested dictionaries
representing sub-records; on any other disagreement the value from the
higher-ranked head wins; a field contributed by only one head is kept.  The
fuel bounds the nesting depth of the higher-ranked tree. -/
def mergeValF : Nat → Value → Value → Value
  | 0, hi, _ => hi
  | fuel + 1, .dict d1, .dict d2 =>
    .dict (mergeDictsWith (mergeValF fuel) (d1.length + d2.length) d1 d2)
  | _ + 1, hi, _ => hi

/-- The field-by-field merge of two head trees, higher-ranked tree first. -/
def mergeVal (hi lo : Value) : Value := mergeValF (vdepth hi) hi lo

/-- Modelled from the spec (§4.4 step 3) over the whole antichain: the
heads' trees in descending rank order fold through `mergeVal`, so each field
on which heads disagree resolves to the highest-ranked head defining it,
agreeing fields are kept, and fields contributed only by lower-ranked heads
survive. -/
def overlayAll (ts : List Value) : Value := ts.foldr mergeVal (.dict [])

/-- Reads a canonical byte string as a number (a collision-free digest). -/
def encNum (l : List Nat) : Nat := l.foldl (fun acc d => acc * 258 + (d + 1)) 0

/-- Modelled from the spec: the content hash computed over the canonical
plaintext tree a snapshot represents (§3), realized collision-free as the
canonical encoding read as a number — identical logical states always
compare equal and distinct canonical trees never collide. -/
def treeHash (t : Value) : Nat := encNum (encodeVal t)

/-- Set union of the merge pool (§4.4 step 1): snapshots are
hash-identified, so a later occurrence of an already-seen hash denotes the
same snapshot and is dropped. -/
def dedupeByHash : List Snapshot → List Snapshot
  | [] => []
  | s :: rest => s :: (dedupeByHash rest).filter (fun t => !(t.hash == s.hash))

/-- Inserts a snapshot into a rank-descending list, keeping it sorted. -/
def insertRanked (s : Snapshot) : List Snapshot → List Snapshot
  | [] => [s]
  | t :: ts => if rankLt t s then s :: t :: ts else t :: insertRanked s ts

/-- Sorts snapshots into descending §4.4 rank order (topological depth,
ties broken by hash). -/
def sortRanked : List Snapshot → List Snapshot
  | [] => []
  | s :: rest => insertRanked s (sortRanked rest)

/-- The largest topological depth among a list of snapshots. -/
def maxDepthOf (l : List Snapshot) : Nat := l.foldr (fun s acc => max s.depth acc) 0

/-- Modelled from the spec (§4.4 step 2): the obsolete delta — hashes of
pool members named as a parent by some other pool member. -/
def supersededOf (pool : List Snapshot) : List Nat :=
  (pool.filter (fun s => pool.any (fun t => t.parents.contains s.hash))).map Snapshot.hash

/-- Modelled from the spec (§4.4 steps 4–5): with at least two heads a new
local head is synthesized whose `parent_hashes` are the just-merged
antichain, whose tree is the merged tree, whose hash is the content hash of
that canonical tree and whose topological depth sits one above its parents;
it becomes the sole active snapshot (`active := {new head}`).  With a
single head the merged tree is that head's own tree, so the
content-hash-identified "new head" is that head itself and it simply stays
active — the degenerate self-parent loop this would otherwise create is
rejected defensively (§4.4 failure handling). -/
def newActiveOf (heads : List Snapshot) : List Snapshot :=
  match heads with
  | [] => []
  | [h] => [h]
  | hs =>
    [⟨treeHash (overlayAll (hs.map Snapshot.tree)), maxDepthOf hs + 1,
      hs.map Snapshot.hash, overlayAll (hs.map Snapshot.tree)⟩]

/-- Modelled from the spec (§4.4 step 5): when a new head is synthesized,
the old active snapshots are superseded by it and retire into the obsolete
output. -/
def retiredActiveOf (heads active : List Snapshot) : List Nat :=
  match heads with
  | [] => []
  | [_] => []
  | _ => active.map Snapshot.hash

/-- Modelled from the spec: `MergeState = {tree, active, obsolete}` (§3) —
the merged tree installed into the StateStore, the current antichain of
active head snapshots, and the hashes of superseded snapshots accumulated
for the caller to compact at the storage replicas. -/
structure MergeState where
  tree : Value
  active : List Snapshot
  obsolete : List Nat

/-- A fresh object: empty tree, no active head, nothing obsolete. -/
def MergeState.init : MergeState := ⟨.dict [], [], []⟩

/-- Modelled from the spec: one §4.4 merge call, steps 1–5 — the pool is
the set union of the current active snapshots and the incoming batch
(step 1), the heads are its fresh antichain (step 2), the tree is the
field-by-field rank-resolved merge of the heads in descending rank order
(step 3), a new head over the merged antichain becomes the sole active
snapshot (step 4), and the obsolete output extends with the retired old
active set plus the superseded pool members (step 5). -/
def mergeStep (st : MergeState) (incoming : List Snapshot) : MergeState :=
  let pool := dedupeByHash (st.active ++ incoming)
  let heads := sortRanked (headsOf pool)
  ⟨overlayAll (heads.map Snapshot.tree),
   newActiveOf heads,
   st.obsolete ++ retiredActiveOf heads st.active ++ supersededOf pool⟩

theorem insertRanked_mem (a : Snapshot) (l : List Snapshot) (x : Snapshot) :
    x ∈ insertRanked a l ↔ x = a ∨ x ∈ l := by
  induction l with
  | nil => simp [insertRanked]
  | cons t ts ih =>
    unfold insertRanked
    by_cases h : rankLt t a
    · rw [if_pos h]
      simp [List.mem_cons]
    · rw [if_neg h]
      simp only [List.mem_cons, ih]
      tauto

theorem sortRanked_mem (l : List Snapshot) (x : Snapshot) :
    x ∈ sortRanked l ↔ x ∈ l := by
  induction l with
  | nil => simp [sortRanked]
  | cons s rest ih =>
    simp only [sortRanked, insertRanked_mem, ih, List.mem_cons]

theorem insertRanked_perm (a : Snapshot) (l : List Snapshot) :
    List.Perm (insertRanked a l) (a :: l) := by
  induction l with
  | nil => exact List.Perm.refl _
  | cons t ts ih =>
    unfold insertRanked
    by_cases h : rankLt t a
    · rw [if_pos h]
    · rw [if_neg h]
      exact (List.Perm.cons t ih).trans (List.Perm.swap a t ts)

theorem sortRanked_perm (l : List Snapshot) : List.Perm (sortRanked l) l := by
  induction l with
  | nil => exact List.Perm.refl _
  | cons s rest ih =>
    exact (insertRanked_perm s (sortRanked rest)).trans (List.Perm.cons s ih)

theorem insertRanked_sorted (a : Snapshot) (l : List Snapshot)
    (h : List.Pairwise (fun x y => ¬ rankLt x y) l) :
    List.Pairwise (fun x y => ¬ rankLt x y) (insertRanked a l) := by
  induction l with
  | nil => simp [insertRanked]
  | cons t ts ih =>
    obtain ⟨ht, hts⟩ := List.pairwise_cons.mp h
    unfold insertRanked
    by_cases hc : rankLt t a
    · rw [if_pos hc]
      refine List.Pairwise.cons ?_ h
      intro x hx
      rcases List.mem_cons.mp hx with rfl | hx'
      · exact rankLt_asymm hc
      · intro hax
        exact ht x hx' (rankLt_trans hc hax)
    · rw [if_neg hc]
      refine List.Pairwise.cons ?_ (ih hts)
      intro x hx
      rcases (insertRanked_mem a ts x).mp hx with rfl | hx'
      · exact hc
      · exact ht x hx'

theorem sortRanked_sorted (l : List Snapshot) :
    List.Pairwise (fun x y => ¬ rankLt x y) (sortRanked l) := by
  induction l with
  | nil => simp [sortRanked]
  | cons s rest ih => exact insertRanked_sorted s (sortRanked rest) ih

theorem sortRanked_pairwise_hash (l : List Snapshot)
    (h : List.Pairwise (fun x y => x.hash ≠ y.hash) l) :
    List.Pairwise (fun x y => x.hash ≠ y.hash) (sortRanked l) := by
  exact (List.Perm.pairwise_iff (fun hxy he => hxy he.symm)
    (sortRanked_perm l)).mpr h

theorem sortedDesc_unique :
    ∀ l₁ l₂ : List Snapshot,
      List.Pairwise (fun x y => ¬ rankLt x y) l₁ →
      List.Pairwise (fun x y => ¬ rankLt x y) l₂ →
      List.Pairwise (fun x y => x.hash ≠ y.hash) l₁ →
      List.Pairwise (fun x y => x.hash ≠ y.hash) l₂ →
      (∀ s, s ∈ l₁ ↔ s ∈ l₂) → l₁ = l₂ := by
  intro l₁
  induction l₁ with
  | nil =>
    intro l₂ _ _ _ _ hset
    cases l₂ with
    | nil => rfl
    | cons b t₂ => exact absurd ((hset b).mpr (by simp)) (by simp)
  | cons a t₁ ih =>
    intro l₂ hs₁ hs₂ hh₁ hh₂ hset
    cases l₂ with
    | nil => exact absurd ((hset a).mp (by simp)) (by simp)
    | cons b t₂ =>
      obtain ⟨ha, hs₁t⟩ := List.pairwise_cons.mp hs₁
      obtain ⟨hb, hs₂t⟩ := List.pairwise_cons.mp hs₂
      obtain ⟨hha, hh₁t⟩ := List.pairwise_cons.mp hh₁
      obtain ⟨hhb, hh₂t⟩ := List.pairwise_cons.mp hh₂
      have hab : a = b := by
        rcases List.mem_cons.mp ((hset b).mpr (by simp)) with h1 | h1
        · exact h1.symm
        rcases List.mem_cons.mp ((hset a).mp (by simp)) with h2 | h2
        · exact h2
        have n1 : ¬ rankLt a b := ha b h1
        have n2 : ¬ rankLt b a := hb a h2
        exact absurd (rankLt_tight n1 n2).2 (hha b h1)
      subst hab
      congr 1
      apply ih t₂ hs₁t hs₂t hh₁t hh₂t
      intro s
      constructor
      · intro hst
        rcases List.mem_cons.mp ((hset s).mp (List.mem_cons_of_mem a hst)) with rfl | h1
        · exact absurd rfl (hha s hst)
        · exact h1
      · intro hst
        rcases List.mem_cons.mp ((hset s).mpr (List.mem_cons_of_mem a hst)) with rfl | h1
        · exact absurd rfl (hhb s hst)
        · exact h1

theorem dedupeByHash_sub (l : List Snapshot) (s : Snapshot) (h : s ∈ dedupeByHash l) :
    s ∈ l := by
  induction l with
  | nil => simp [dedupeByHash] at h
  | cons a rest ih =>
    simp only [dedupeByHash, List.mem_cons] at h
    rcases h with rfl | h
    · simp
    · exact List.mem_cons_of_mem a (ih (List.mem_of_mem_filter h))

theorem dedupeByHash_mem (l : List Snapshot) (s : Snapshot)
    (hinj : ∀ a b, a ∈ l → b ∈ l → a.hash = b.hash → a = b) (h : s ∈ l) :
    s ∈ dedupeByHash l := by
  induction l with
  | nil => simp at h
  | cons a rest ih =>
    rcases List.mem_cons.mp h with rfl | h'
    · simp [dedupeByHash]
    · by_cases hh : s.hash = a.hash
      · have hsa : s = a := hinj s a (List.mem_cons_of_mem a h') (by simp) hh
        rw [hsa]
        simp [dedupeByHash]
      · have hmem : s ∈ dedupeByHash rest :=
          ih (fun x y hx hy =>
            hinj x y (List.mem_cons_of_mem a hx) (List.mem_cons_of_mem a hy)) h'
        simp only [dedupeByHash, List.mem_cons]
        right
        rw [List.mem_filter]
        exact ⟨hmem, by simp [hh]⟩

theorem dedupeByHash_pairwise (l : List Snapshot) :
    List.Pairwise (fun x y => x.hash ≠ y.hash) (dedupeByHash l) := by
  induction l with
  | nil => simp [dedupeByHash]
  | cons a rest ih =>
    simp only [dedupeByHash]
    refine List.Pairwise.cons ?_ (List.Pairwise.sublist (List.filter_sublist _) ih)
    intro b hb
    have hne := (List.mem_filter.mp hb).2
    simp only [Bool.not_eq_eq_eq_not, Bool.not_true, beq_eq_false_iff_ne, ne_eq] at hne
    exact fun hab => hne hab.symm

theorem supersededOf_congr (p₁ p₂ : List Snapshot) (hset : ∀ s, s ∈ p₁ ↔ s ∈ p₂) :
    ∀ h, h ∈ supersededOf p₁ ↔ h ∈ supersededOf p₂ := by
  intro h
  unfold supersededOf
  simp only [List.mem_map, List.mem_filter, List.any_eq_true]
  constructor
  · rintro ⟨s, ⟨hs, t, ht, hc⟩, rfl⟩
    exact ⟨s, ⟨(hset s).mp hs, t, (hset t).mp ht, hc⟩, rfl⟩
  · rintro ⟨s, ⟨hs, t, ht, hc⟩, rfl⟩
    exact ⟨s, ⟨(hset s).mpr hs, t, (hset t).mpr ht, hc⟩, rfl⟩

theorem overlayAll_single (t : Value) : overlayAll [t] = t := by
  unfold overlayAll
  simp only [List.foldr_cons, List.foldr_nil]
  match t with
  | .null | .boolean _ | .int _ | .bytes _ => rfl
  | .list l => rfl
  | .dict d =>
    show Value.dict (mergeDictsWith (mergeValF (ddepth d)) (d.length + 0) d []) = Value.dict d
    congr 1
    match d with
    | [] => rfl
    | (k, v) :: kvs => rfl

theorem mergeStep_congr (st : MergeState) (B₁ B₂ : List Snapshot)
    (hinj : ∀ a b, a ∈ st.active ++ B₁ ++ B₂ → b ∈ st.active ++ B₁ ++ B₂ →
      a.hash = b.hash → a = b)
    (hset : ∀ s, s ∈ B₁ ↔ s ∈ B₂) :
    (mergeStep st B₁).tree = (mergeStep st B₂).tree ∧
    (mergeStep st B₁).active = (mergeStep st B₂).active ∧
    (∀ h, h ∈ (mergeStep st B₁).obsolete ↔ h ∈ (mergeStep st B₂).obsolete) := by
  have sub₁ : ∀ x : Snapshot, x ∈ st.active ++ B₁ → x ∈ st.active ++ B₁ ++ B₂ := by
    intro x hx
    simp only [List.mem_append] at hx ⊢
    tauto
  have sub₂ : ∀ x : Snapshot, x ∈ st.active ++ B₂ → x ∈ st.active ++ B₁ ++ B₂ := by
    intro x hx
    simp only [List.mem_append] at hx ⊢
    tauto
  have hinj₁ : ∀ a b, a ∈ st.active ++ B₁ → b ∈ st.active ++ B₁ →
      a.hash = b.hash → a = b :=
    fun a b ha hb => hinj a b (sub₁ a ha) (sub₁ b hb)
  have hinj₂ : ∀ a b, a ∈ st.active ++ B₂ → b ∈ st.active ++ B₂ →
      a.hash = b.hash → a = b :=
    fun a b ha hb => hinj a b (sub₂ a ha) (sub₂ b hb)
  have hpoolset : ∀ s, s ∈ dedupeByHash (st.active ++ B₁) ↔
      s ∈ dedupeByHash (st.active ++ B₂) := by
    intro s
    constructor
    · intro hs
      apply dedupeByHash_mem _ _ hinj₂
      have hmem := dedupeByHash_sub _ _ hs
      simp only [List.mem_append] at hmem ⊢
      rcases hmem with h | h
      · exact Or.inl h
      · exact Or.inr ((hset s).mp h)
    · intro hs
      apply dedupeByHash_mem _ _ hinj₁
      have hmem := dedupeByHash_sub _ _ hs
      simp only [List.mem_append] at hmem ⊢
      rcases hmem with h | h
      · exact Or.inl h
      · exact Or.inr ((hset s).mpr h)
  have hEq : sortRanked (headsOf (dedupeByHash (st.active ++ B₁))) =
      sortRanked (headsOf (dedupeByHash (st.active ++ B₂))) := by
    apply sortedDesc_unique _ _ (sortRanked_sorted _) (sortRanked_sorted _)
    · exact sortRanked_pairwise_hash _
        (List.Pairwise.sublist (List.filter_sublist _) (dedupeByHash_pairwise _))
    · exact sortRanked_pairwise_hash _
        (List.Pairwise.sublist (List.filter_sublist _) (dedupeByHash_pairwise _))
    · intro s
      rw [sortRanked_mem, sortRanked_mem]
      exact headsOf_congr _ _ hpoolset s
  refine ⟨?_, ?_, ?_⟩
  · show overlayAll ((sortRanked (headsOf (dedupeByHash (st.active ++ B₁)))).map
        Snapshot.tree) = overlayAll ((sortRanked (headsOf (dedupeByHash
        (st.active ++ B₂)))).map Snapshot.tree)
    rw [hEq]
  · show newActiveOf (sortRanked (headsOf (dedupeByHash (st.active ++ B₁)))) =
      newActiveOf (sortRanked (headsOf (dedupeByHash (st.active ++ B₂))))
    rw [hEq]
  · intro h
    show h ∈ st.obsolete ++
        retiredActiveOf (sortRanked (headsOf (dedupeByHash (st.active ++ B₁))))
          st.active ++ supersededOf (dedupeByHash (st.active ++ B₁)) ↔
      h ∈ st.obsolete ++
        retiredActiveOf (sortRanked (headsOf (dedupeByHash (st.active ++ B₂))))
          st.active ++ supersededOf (dedupeByHash (st.active ++ B₂))
    rw [hEq]
    simp only [List.mem_append]
    have hsup := supersededOf_congr _ _ hpoolset h
    tauto

theorem mergeStep_redeliver (st : MergeState) (h : Snapshot) (B : List Snapshot)
    (hact : st.active = [h]) (htree : st.tree = h.tree)
    (hfresh : h.hash ∉ h.parents) (hB : B = [] ∨ B = [h]) :
    (mergeStep st B).tree = st.tree ∧ (mergeStep st B).active = st.active := by
  have hpool : dedupeByHash (st.active ++ B) = [h] := by
    rcases hB with rfl | rfl <;> rw [hact] <;> simp [dedupeByHash]
  have hheads : headsOf [h] = [h] := by
    unfold headsOf
    simp [hfresh]
  constructor
  · show overlayAll ((sortRanked (headsOf (dedupeByHash (st.active ++ B)))).map
        Snapshot.tree) = st.tree
    rw [hpool, hheads]
    show overlayAll [h.tree] = st.tree
    rw [overlayAll_single, htree]
  · show newActiveOf (sortRanked (headsOf (dedupeByHash (st.active ++ B)))) = st.active
    rw [hpool, hheads, hact]
    rfl

/-- C1 (amended): within a single merge call, the §4.4 algorithm is a
deterministic, order-independent function of the set of snapshots delivered
together with the current active set — permuting or duplicating snapshots
inside one batch yields the same merged tree, the same new active head and
the same obsolete hashes (the merge is commutative and idempotent over
delivery order and duplication within a call); and re-delivering the
currently active head (or an empty batch) to an already-merged state leaves
the tree and the active set unchanged.  The hypothesis that equal hashes
mean equal snapshots reflects §3's hash identification.  Splitting a
snapshot set across sequential calls, however, need not reproduce the
one-call tree (see the counterexample): the head synthesized by an earlier
call competes by rank with heads delivered later. -/
theorem merge_single_call_deterministic :
    (∀ (st : MergeState) (B₁ B₂ : List Snapshot),
      (∀ a b, a ∈ st.active ++ B₁ ++ B₂ → b ∈ st.active ++ B₁ ++ B₂ →
        a.hash = b.hash → a = b) →
      (∀ s, s ∈ B₁ ↔ s ∈ B₂) →
      (mergeStep st B₁).tree = (mergeStep st B₂).tree ∧
      (mergeStep st B₁).active = (mergeStep st B₂).active ∧
      (∀ h, h ∈ (mergeStep st B₁).obsolete ↔ h ∈ (mergeStep st B₂).obsolete)) ∧
    (∀ (st : MergeState) (h : Snapshot) (B : List Snapshot),
      st.active = [h] → st.tree = h.tree → h.hash ∉ h.parents →
      (B = [] ∨ B = [h]) →
      (mergeStep st B).tree = st.tree ∧ (mergeStep st B).active = st.active) :=
  ⟨mergeStep_congr, mergeStep_redeliver⟩

/-- A root snapshot contributing the field `[1] ↦ 0`. -/
def cexTreeA : Value := .dict [([1], .int 0)]

/-- A root snapshot contributing the field `[2] ↦ 1`. -/
def cexTreeB : Value := .dict [([2], .int 1)]

/-- A root snapshot contributing `[1] ↦ 5` (conflicting with `cexTreeA`)
plus two fields of its own; its longer encoding gives it the largest
content hash of the three. -/
def cexTreeC : Value := .dict [([1], .int 5), ([3], .int 6), ([4], .int 7)]

/-- Hash-consistent root snapshot carrying `cexTreeA`. -/
def cexA : Snapshot := ⟨treeHash cexTreeA, 1, [], cexTreeA⟩

/-- Hash-consistent root snapshot carrying `cexTreeB`. -/
def cexB : Snapshot := ⟨treeHash cexTreeB, 1, [], cexTreeB⟩

/-- Hash-consistent root snapshot carrying `cexTreeC`. -/
def cexC : Snapshot := ⟨treeHash cexTreeC, 1, [], cexTreeC⟩

/-- C1 counterexample: `[[cexA, cexB], [cexC]]` partitions the snapshot set
`[cexA, cexB, cexC]` (three hash-consistent root snapshots of equal depth),
yet merging the two groups sequentially yields a different final tree than
merging the whole set in one call.  In one call `cexC` carries the largest
hash among the equal-depth heads, so the conflicting field `[1]` resolves
to its value `5`; sequentially, the head synthesized from the first group
has topological depth 2 and outranks `cexC` (depth 1), so `[1]` stays at
`cexA`'s value `0`. -/
theorem merge_convergence_counterexample :
    ¬ ((([[cexA, cexB], [cexC]] : List (List Snapshot)).foldl mergeStep
          MergeState.init).tree =
        (mergeStep MergeState.init [cexA, cexB, cexC]).tree) := by
  intro hcontra
  have henc : encode ((([[cexA, cexB], [cexC]] : List (List Snapshot)).foldl mergeStep
        MergeState.init).tree) =
      encode ((mergeStep MergeState.init [cexA, cexB, cexC]).tree) := by
    rw [hcontra]
  exact absurd henc (by decide)

theorem merge_single_call_deterministic_witness :
    (mergeStep MergeState.init [cexA, cexB]).tree =
      (mergeStep MergeState.init [cexB, cexA, cexA]).tree :=
  (merge_single_call_deterministic.1 MergeState.init [cexA, cexB] [cexB, cexA, cexA]
    (by
      intro a b ha hb hab
      simp only [MergeState.init, List.nil_append, List.append_assoc, List.mem_append,
        List.mem_cons, List.not_mem_nil, or_false] at ha hb
      rcases ha with (rfl | rfl) | rfl | rfl | rfl <;>
        rcases hb with (rfl | rfl) | rfl | rfl | rfl <;>
        first
          | rfl
          | exact absurd hab (by decide)
          | exact absurd hab.symm (by decide))
    (by
      intro s
      simp only [List.mem_cons, List.not_mem_nil, or_false]
      tauto)).1

/-- The encryption domain of the user profile config, from
`UserProfile::encryption_domain()` in `src/unnamed/part_000`. -/
def encryptionDomain : String := "UserProfile"

/-- The storage namespace of the user profile config, from
`Namespace::UserProfile = 2` in `src/unnamed/part_000`. -/
def storageNamespace : Nat := 2

/-- Modelled from the spec: `derive_key` (§4.2) — a deterministic function
combining the 32-byte identity seed, the ASCII domain string, and the
namespace id.  The CryptoBox implementation is not under `src/`. -/
def deriveKey (seed : List Nat) (domain : String) (ns : Nat) : List Nat :=
  seed ++ domain.toList.map Char.toNat ++ [ns]

/-- Construction-time failures (§6, §7). -/
inductive InitError where
  | invalidKey : InitError
  | decodeError : InitError
deriving DecidableEq

/-- Modelled from the spec: a constructed config object — the derived
encryption key, the current tree, and the dirty flag (§3 lifecycle). -/
structure ConfigObject where
  key : List Nat
  tree : Value
  dirty : Bool

/-- Modelled from the spec: construction `new(identity_secret_bytes,
optional(dump_bytes))` (§6) — fails with `InvalidKeyError` unless the secret
is 32 or 64 bytes, fails with `DecodeError` when dump bytes are present but
corrupt, and otherwise returns the fully initialized object.  Per the
`UserProfile` constructor doc comment in `src/unnamed/part_000` the secret
is either the full 64-byte value (32-byte seed followed by the 32-byte
pubkey) or just the 32-byte seed; only the seed enters key derivation. -/
def configInit (secret : List Nat) (dump : Option (List Nat)) :
    Except InitError ConfigObject :=
  if secret.length = 32 ∨ secret.length = 64 then
    match dump with
    | none =>
      .ok ⟨deriveKey (secret.take 32) encryptionDomain storageNamespace, .dict [], false⟩
    | some d =>
      match decode d with
      | some t =>
        .ok ⟨deriveKey (secret.take 32) encryptionDomain storageNamespace, t, false⟩
      | none => .error .decodeError
  else .error .invalidKey

/-- C4: construction error contract.  Construction fails with
`InvalidKeyError` whenever the identity secret is neither 32 nor 64 bytes;
with a well-sized secret it fails with `DecodeError` whenever dump bytes
are supplied but corrupt (fail to decode); and it is all-or-nothing — the
result is either an error or a fully constructed object, so no partially
initialized object is ever observable. -/
theorem config_init_error_contract (secret : List Nat) (dump : Option (List Nat)) :
    ((secret.length ≠ 32 ∧ secret.length ≠ 64) →
      configInit secret dump = .error .invalidKey) ∧
    (∀ d, (secret.length = 32 ∨ secret.length = 64) → dump = some d →
      decode d = none → configInit secret dump = .error .decodeError) ∧
    ((∃ e, configInit secret dump = .error e) ∨
      (∃ o, configInit secret dump = .ok o)) := by
  refine ⟨?_, ?_, ?_⟩
  · intro h
    unfold configInit
    rw [if_neg (by omega)]
  · intro d hlen hdump hbad
    subst hdump
    unfold configInit
    rw [if_pos hlen]
    dsimp only
    rw [hbad]
  · match h : configInit secret dump with
    | .error e => exact Or.inl ⟨e, rfl⟩
    | .ok o => exact Or.inr ⟨o, rfl⟩

theorem config_init_error_contract_witness :
    configInit (List.replicate 31 0) none = .error .invalidKey ∧
    configInit (List.replicate 32 0) (some [9]) = .error .decodeError :=
  ⟨(config_init_error_contract (List.replicate 31 0) none).1 (by simp),
   (config_init_error_contract (List.replicate 32 0) (some [9])).2.1 [9]
    (by simp) rfl (by simp [decode, decodeVal])⟩

/-- C10: constructing from the full 64-byte libsodium secret key (the
32-byte seed followed by the 32-byte pubkey) is indistinguishable from
constructing from the 32-byte seed alone: the resulting objects — derived
encryption key included — are equal, hence behave identically under every
subsequent operation. -/
theorem full_key_equals_seed_key (seed pub : List Nat) (dump : Option (List Nat))
    (h32 : seed.length = 32) (hp : pub.length = 32) :
    configInit (seed ++ pub) dump = configInit seed dump := by
  unfold configInit
  have hl : (seed ++ pub).length = 64 := by simp [h32, hp]
  rw [if_pos (Or.inr hl), if_pos (Or.inl h32)]
  rw [← h32, List.take_left, List.take_length]

theorem full_key_equals_seed_key_witness :
    configInit (List.replicate 32 0 ++ List.replicate 32 1) none =
      configInit (List.replicate 32 0) none :=
  full_key_equals_seed_key (List.replicate 32 0) (List.replicate 32 1) none
    (by simp) (by simp)

/-- One hexadecimal character. -/
def isHexChar (c : Char) : Bool :=
  c.isDigit || ('a' ≤ c && c ≤ 'f') || ('A' ≤ c && c ≤ 'F')

/-- Modelled from the spec: the fixed hex-identifier format a session id
must satisfy (§3 invariants) — 66 hex characters, matching
`char session_id[67]` ("66 hex chars + null terminator") in
`src/include/session/config/user_groups.h`. -/
def validSessionId (s : String) : Bool :=
  s.length == 66 && s.toList.all isHexChar

/-- Looks a member up by session id in a member table. -/
def memberLookup (members : List (String × Bool)) (sid : String) : Option Bool :=
  (members.find? (fun m => m.1 == sid)).map (fun m => m.2)

/-- Modelled from `ugroups_legacy_group_info` in
`src/include/session/config/user_groups.h`: the legacy group record with its
ordered, uniquely-keyed member table (§3, §4.5). -/
structure LegacyGroupInfo where
  session_id : String
  name : String
  enc_keys : Option (List Nat × List Nat)
  disappearing_timer : Int
  priority : Int
  joined_at : Int
  notifications : Nat
  mute_until : Int
  members : List (String × Bool)
deriving DecidableEq

/-- Modelled from the spec: `ugroups_legacy_member_add` — true if the member
was inserted or had the admin status changed, false if the member already
existed with the given status or the session id is not valid
(`src/include/session/config/user_groups.h`, §4.5); the implementation is
not under `src/`. -/
def memberAdd (g : LegacyGroupInfo) (sid : String) (admin : Bool) :
    Bool × LegacyGroupInfo :=
  if validSessionId sid then
    match memberLookup g.members sid with
    | some a =>
      if a == admin then (false, g)
      else (true, { g with
        members := g.members.map (fun m => if m.1 == sid then (m.1, admin) else m) })
    | none => (true, { g with members := g.members ++ [(sid, admin)] })
  else (false, g)

/-- Modelled from the spec: `ugroups_legacy_member_remove` — found-and-removed. -/
def memberRemove (g : LegacyGroupInfo) (sid : String) : Bool × LegacyGroupInfo :=
  (g.members.any (fun m => m.1 == sid),
   { g with members := g.members.filter (fun m => !(m.1 == sid)) })

/-- Modelled from the spec: `ugroups_legacy_members_count` — total, admin and
non-admin member counts. -/
def membersCount (g : LegacyGroupInfo) : Nat × Nat × Nat :=
  (g.members.length,
   (g.members.filter (fun m => m.2)).length,
   (g.members.filter (fun m => !m.2)).length)

theorem memberLookup_map_set (l : List (String × Bool)) (sid : String) (admin : Bool)
    (a : Bool) (h : memberLookup l sid = some a) :
    memberLookup (l.map (fun m => if m.1 == sid then (m.1, admin) else m)) sid =
      some admin := by
  induction l with
  | nil => simp [memberLookup] at h
  | cons m l ih =>
    cases hm : m.1 == sid with
    | true =>
      unfold memberLookup
      rw [List.map_cons]
      rw [if_pos hm, List.find?_cons]
      dsimp only
      rw [hm]
      rfl
    | false =>
      simp only [memberLookup, List.find?_cons, hm] at h ⊢
      simp only [List.map_cons]
      rw [if_neg (by simp [hm]), List.find?_cons]
      rw [hm]
      exact ih h

theorem memberLookup_append_new (l : List (String × Bool)) (sid : String) (admin : Bool)
    (h : memberLookup l sid = none) :
    memberLookup (l ++ [(sid, admin)]) sid = some admin := by
  induction l with
  | nil => simp [memberLookup]
  | cons m l ih =>
    cases hm : m.1 == sid with
    | true => simp [memberLookup, List.find?_cons, hm] at h
    | false =>
      simp only [memberLookup, List.find?_cons, hm, Bool.false_eq_true, if_false] at h ⊢
      simp only [List.cons_append, List.find?_cons, hm, Bool.false_eq_true, if_false]
      exact ih h

/-- C5: member add contract.  For every group and `(session_id, is_admin)`
pair, `add` returns true exactly when the session id passes format
validation and the member was absent (insert) or present with the other
admin flag (flag change); whenever it returns false — invalid id, or member
already present with the identical flag — the group is left unchanged; and
whenever it returns true the updated table maps the session id to the
requested admin flag. -/
theorem member_add_contract (g : LegacyGroupInfo) (sid : String) (admin : Bool) :
    ((memberAdd g sid admin).1 = true ↔
      (validSessionId sid = true ∧ memberLookup g.members sid ≠ some admin)) ∧
    ((memberAdd g sid admin).1 = false → (memberAdd g sid admin).2 = g) ∧
    ((memberAdd g sid admin).1 = true →
      memberLookup (memberAdd g sid admin).2.members sid = some admin) := by
  unfold memberAdd
  by_cases hv : validSessionId sid = true
  · rw [if_pos hv]
    match hl : memberLookup g.members sid with
    | some a =>
      dsimp only
      by_cases ha : (a == admin) = true
      · rw [if_pos ha]
        have : a = admin := by simpa using ha
        subst this
        refine ⟨by simp [hl], by simp, by simp⟩
      · rw [if_neg ha]
        have hne : ¬ a = admin := by simpa using ha
        refine ⟨by simp [hv, hl, hne], by simp, ?_⟩
        intro _
        exact memberLookup_map_set g.members sid admin a hl
    | none =>
      dsimp only
      refine ⟨by simp [hv, hl], by simp, ?_⟩
      intro _
      exact memberLookup_append_new g.members sid admin hl
  · rw [if_neg hv]
    exact ⟨by simp [hv], by simp, by simp⟩

theorem member_add_contract_witness :
    (memberAdd ⟨"", "", none, 0, 0, 0, 0, 0, []⟩ "not-a-session-id" true).1 = false ∧
    (memberAdd ⟨"", "", none, 0, 0, 0, 0, 0, []⟩ "not-a-session-id" true).2 =
      ⟨"", "", none, 0, 0, 0, 0, 0, []⟩ :=
  ⟨by decide,
   (member_add_contract ⟨"", "", none, 0, 0, 0, 0, 0, []⟩ "not-a-session-id" true).2.1
    (by decide)⟩

/-- Modelled from the spec: the member iteration cursor (§4.5) — members
already visited and kept, the member currently under the cursor (if any),
and the members still to visit.  Mirrors `ugroups_legacy_members_iterator`
in `src/include/session/config/user_groups.h`; the implementation is not
under `src/`. -/
structure MembersIter where
  kept : List (String × Bool)
  cur : Option (String × Bool)
  rest : List (String × Bool)

/-- Starts an iteration over a member table (`ugroups_legacy_members_begin`). -/
def itBegin (l : List (String × Bool)) : MembersIter := ⟨[], none, l⟩

/-- Advances the cursor (`ugroups_legacy_members_next`): the member under the
cursor (when not erased) is committed to the visited list and the next
member, if any, is yielded and placed under the cursor. -/
def itNext (it : MembersIter) : Option (String × Bool) × MembersIter :=
  match it.rest with
  | [] => (none, ⟨it.kept ++ it.cur.toList, none, []⟩)
  | x :: xs => (some x, ⟨it.kept ++ it.cur.toList, some x, xs⟩)

/-- Erases the member at the current iteration location
(`ugroups_legacy_members_erase`), allowing iteration to continue. -/
def itEraseCurrent (it : MembersIter) : MembersIter := ⟨it.kept, none, it.rest⟩

/-- The member table an iterator state denotes. -/
def itTable (it : MembersIter) : List (String × Bool) :=
  it.kept ++ it.cur.toList ++ it.rest

/-- Runs a full iteration that erases every other visited member via the
cursor (the first visited member is kept); `eraseNow` tells whether the next
yielded member is erased. -/
def runAlternate (fuel : Nat) (it : MembersIter) (eraseNow : Bool) : MembersIter :=
  match fuel with
  | 0 => it
  | fuel + 1 =>
    match itNext it with
    | (none, it') => it'
    | (some _, it') =>
      runAlternate fuel (if eraseNow then itEraseCurrent it' else it') (!eraseNow)

/-- Erasing every other member of a table through the cursor-erase pattern of
`src/include/session/config/user_groups.h`. -/
def eraseEveryOther (l : List (String × Bool)) : List (String × Bool) :=
  itTable (runAlternate (l.length + 1) (itBegin l) false)

mutual
/-- The members at even visit positions (first, third, ...). -/
def evens {α : Type} : List α → List α
  | [] => []
  | x :: xs => x :: odds xs

/-- The members at odd visit positions (second, fourth, ...). -/
def odds {α : Type} : List α → List α
  | [] => []
  | _ :: xs => evens xs
end

/-- Collects the members yielded by a full fresh iteration. -/
def collectIter (fuel : Nat) (it : MembersIter) : List (String × Bool) :=
  match fuel with
  | 0 => []
  | fuel + 1 =>
    match itNext it with
    | (none, _) => []
    | (some x, it') => x :: collectIter fuel it'

theorem runAlternate_table (l : List (String × Bool)) :
    ∀ (fuel : Nat) (k : List (String × Bool)) (c : Option (String × Bool)),
      l.length + 1 ≤ fuel →
      itTable (runAlternate fuel ⟨k, c, l⟩ false) = k ++ c.toList ++ evens l ∧
      itTable (runAlternate fuel ⟨k, c, l⟩ true) = k ++ c.toList ++ odds l := by
  induction l with
  | nil =>
    intro fuel k c hf
    match fuel with
    | fuel + 1 =>
      constructor <;> simp [runAlternate, itNext, itTable, evens, odds]
  | cons x xs ih =>
    intro fuel k c hf
    match fuel with
    | fuel + 1 =>
      have hf' : xs.length + 1 ≤ fuel := by
        simp only [List.length_cons] at hf
        omega
      constructor
      · rw [show runAlternate (fuel + 1) ⟨k, c, x :: xs⟩ false =
          runAlternate fuel ⟨k ++ c.toList, some x, xs⟩ true from rfl]
        rw [(ih fuel (k ++ c.toList) (some x) hf').2]
        simp [evens, List.append_assoc]
      · rw [show runAlternate (fuel + 1) ⟨k, c, x :: xs⟩ true =
          runAlternate fuel ⟨k ++ c.toList, none, xs⟩ false from rfl]
        rw [(ih fuel (k ++ c.toList) none hf').1]
        simp [odds, List.append_assoc]

theorem eraseEveryOther_eq_evens (l : List (String × Bool)) :
    eraseEveryOther l = evens l := by
  unfold eraseEveryOther itBegin
  rw [(runAlternate_table l (l.length + 1) [] none le_rfl).1]
  simp

theorem evens_odds_length {α : Type} (l : List α) :
    (evens l).length = (l.length + 1) / 2 ∧ (odds l).length = l.length / 2 := by
  induction l with
  | nil => simp [evens, odds]
  | cons x xs ih =>
    constructor
    · simp only [evens, List.length_cons, ih.2]
      try omega
    · simp only [odds, List.length_cons, ih.1]
      try omega

theorem evens_odds_sublist {α : Type} (l : List α) :
    List.Sublist (evens l) l ∧ List.Sublist (odds l) l := by
  induction l with
  | nil => simp [evens, odds]
  | cons x xs ih =>
    constructor
    · rw [show evens (x :: xs) = x :: odds xs from rfl]
      exact List.Sublist.cons₂ x ih.2
    · rw [show odds (x :: xs) = evens xs from rfl]
      exact List.Sublist.cons x ih.1

theorem collectIter_all (l : List (String × Bool)) :
    ∀ (fuel : Nat) (k : List (String × Bool)) (c : Option (String × Bool)),
      l.length + 1 ≤ fuel → collectIter fuel ⟨k, c, l⟩ = l := by
  induction l with
  | nil =>
    intro fuel k c hf
    match fuel with
    | fuel + 1 => simp [collectIter, itNext]
  | cons x xs ih =>
    intro fuel k c hf
    match fuel with
    | fuel + 1 =>
      have hf' : xs.length + 1 ≤ fuel := by
        simp only [List.length_cons] at hf
        omega
      rw [show collectIter (fuel + 1) ⟨k, c, x :: xs⟩ =
        x :: collectIter fuel ⟨k ++ c.toList, some x, xs⟩ from rfl]
      rw [ih fuel (k ++ c.toList) (some x) hf']

/-- C6: erase-during-iteration.  For every member table, erasing every other
member through the iterator's cursor-erase keeps exactly the members at even
visit positions, leaving `ceil(N/2) = (N+1)/2` survivors; the surviving
table is a sublist of the original (the survivors keep their original
relative order), and a fresh full iteration afterwards visits exactly those
survivors. -/
theorem erase_every_other_iteration (l : List (String × Bool)) :
    eraseEveryOther l = evens l ∧
    (eraseEveryOther l).length = (l.length + 1) / 2 ∧
    List.Sublist (eraseEveryOther l) l ∧
    collectIter ((eraseEveryOther l).length + 1) (itBegin (eraseEveryOther l)) =
      eraseEveryOther l := by
  refine ⟨eraseEveryOther_eq_evens l, ?_, ?_, ?_⟩
  · rw [eraseEveryOther_eq_evens l]
    exact (evens_odds_length l).1
  · rw [eraseEveryOther_eq_evens l]
    exact (evens_odds_sublist l).1
  · exact collectIter_all (eraseEveryOther l) _ [] none le_rfl

/-- Lower-cases every character of a string. -/
def lowerStr (s : String) : String := String.mk (s.toList.map Char.toLower)

/-- Drops a leading URL scheme, if present. -/
def stripScheme (l : List Char) : List Char :=
  if l.take 8 = "https://".toList then l.drop 8
  else if l.take 7 = "http://".toList then l.drop 7
  else l

/-- Removes the given suffix from a character list, if present. -/
def stripSuffixL (l suf : List Char) : List Char :=
  if suf.length ≤ l.length ∧ l.drop (l.length - suf.length) = suf then
    l.take (l.length - suf.length)
  else l

/-- Tests whether `suf` is a suffix of `l`. -/
def hasSuffixL (l suf : List Char) : Bool :=
  suf.length ≤ l.length && l.drop (l.length - suf.length) == suf

/-- Drops a default port suffix (":443" or ":80"), if present. -/
def stripDefaultPort (l : List Char) : List Char :=
  if hasSuffixL l (":443".toList) then l.take (l.length - 4)
  else if hasSuffixL l (":80".toList) then l.take (l.length - 3)
  else l

/-- Modelled from the spec: base-url normalization (§3, §4.6 and the
`ugroups_community_info.base_url` comment in
`src/include/session/config/user_groups.h`) — lower-cased, default port
stripped, trailing slash removed; the leading scheme does not participate in
the lookup key (§8 expects `get("example.com", ...)` to find a record stored
from `"https://Example.com:443/"`).  The implementation is not under `src/`. -/
def normalizeBaseUrl (s : String) : String :=
  String.mk (stripDefaultPort (stripSuffixL (stripScheme (s.toList.map Char.toLower)) ['/']))

/-- Modelled from `ugroups_community_info` in
`src/include/session/config/user_groups.h`: the community conversation
record — normalized base url, case-preserving room, 32-byte pubkey and the
conversation settings. -/
structure CommunityInfo where
  base_url : String
  room : String
  pubkey : List Nat
  priority : Int
  joined_at : Int
  notifications : Nat
  mute_until : Int
deriving DecidableEq

/-- A conversation of the user-groups config: a community or a legacy group. -/
inductive Convo where
  | community (c : CommunityInfo) : Convo
  | legacy (g : LegacyGroupInfo) : Convo
deriving DecidableEq

/-- Tests whether a conversation is a community. -/
def Convo.isCommunity : Convo → Bool
  | .community _ => true
  | .legacy _ => false

/-- Tests whether a conversation is a legacy group. -/
def Convo.isLegacy : Convo → Bool
  | .community _ => false
  | .legacy _ => true

/-- Modelled from the spec: the conversation list of a user-groups config
object (one flat collection holding both record kinds, §4.6). -/
structure UserGroups where
  convos : List Convo
deriving DecidableEq

/-- Tests whether a conversation is the community stored under the given
already-normalized base url and already-lowered room token. -/
def commKeyMatch (cv : Convo) (nburl lroom : String) : Bool :=
  match cv with
  | .community c => c.base_url == nburl && lowerStr c.room == lroom
  | .legacy _ => false

/-- Modelled from the spec: `user_groups_get_community` — normalizes
`base_url` before lookup; the `room` lookup is case-insensitive and the
returned record keeps its stored room case
(`src/include/session/config/user_groups.h`). -/
def getCommunity (ug : UserGroups) (burl room : String) : Option CommunityInfo :=
  ug.convos.findSome? (fun cv =>
    match cv with
    | .community c =>
      if c.base_url == normalizeBaseUrl burl && lowerStr c.room == lowerStr room then
        some c
      else none
    | .legacy _ => none)

/-- A community record with its base url normalized for storage. -/
def normalizeCommunity (c : CommunityInfo) : CommunityInfo :=
  { c with base_url := normalizeBaseUrl c.base_url }

/-- Modelled from the spec: `user_groups_set_community` — upserts keyed by
the normalized base url and the lowered room token, storing the given room
case. -/
def setCommunity (ug : UserGroups) (c : CommunityInfo) : UserGroups :=
  let cn := normalizeCommunity c
  if ug.convos.any (fun cv => commKeyMatch cv cn.base_url (lowerStr cn.room)) then
    ⟨ug.convos.map (fun cv =>
      if commKeyMatch cv cn.base_url (lowerStr cn.room) then .community cn else cv)⟩
  else ⟨ug.convos ++ [.community cn]⟩

/-- Modelled from the spec: `user_groups_erase_community` —
found-and-removed flag plus the updated store. -/
def eraseCommunity (ug : UserGroups) (burl room : String) : Bool × UserGroups :=
  (ug.convos.any (fun cv => commKeyMatch cv (normalizeBaseUrl burl) (lowerStr room)),
   ⟨ug.convos.filter (fun cv =>
      !(commKeyMatch cv (normalizeBaseUrl burl) (lowerStr room)))⟩)

/-- The default notification mode of a freshly constructed record. -/
def defaultNotifyMode : Nat := 0

/-- Modelled from the spec: `user_groups_get_or_construct_community` — the
same normalized, case-insensitive lookup as `get` (written out here
independently), and when no record exists a fresh, not-yet-persisted value
with normalized base url, the room exactly as given, and the documented
defaults; the `conf` parameter is `const` in the C declaration, so the
registry cannot change. -/
def getOrConstructCommunity (ug : UserGroups) (burl room : String) (pk : List Nat) :
    CommunityInfo :=
  match ug.convos.findSome? (fun cv =>
    match cv with
    | .community c =>
      if c.base_url == normalizeBaseUrl burl && lowerStr c.room == lowerStr room then
        some c
      else none
    | .legacy _ => none) with
  | some c => c
  | none => ⟨normalizeBaseUrl burl, room, pk, 0, 0, defaultNotifyMode, 0⟩

/-- Tests whether a conversation is the legacy group with the given id. -/
def legacyMatch (cv : Convo) (id : String) : Bool :=
  match cv with
  | .community _ => false
  | .legacy g => g.session_id == id

/-- Modelled from the spec: `user_groups_get_legacy_group`. -/
def getLegacyGroup (ug : UserGroups) (id : String) : Option LegacyGroupInfo :=
  ug.convos.findSome? (fun cv =>
    match cv with
    | .community _ => none
    | .legacy g => if g.session_id == id then some g else none)

/-- A legacy group record with all fields at their documented defaults. -/
def emptyLegacyGroup (id : String) : LegacyGroupInfo :=
  ⟨id, "", none, 0, 0, 0, 0, 0, []⟩

/-- Modelled from the spec: `user_groups_get_or_construct_legacy_group` —
returns NULL exactly when the given id fails the session-id format; when the
conversation does not exist it returns a record with default fields and the
given id (`src/include/session/config/user_groups.h`). -/
def getOrConstructLegacyGroup (ug : UserGroups) (id : String) :
    Option LegacyGroupInfo :=
  if validSessionId id then some ((getLegacyGroup ug id).getD (emptyLegacyGroup id))
  else none

/-- Modelled from the spec: `user_groups_set_legacy_group` — upserts keyed by
session id; per the §3 invariant an invalid identifier never enters the
store, so a record with an invalid id is rejected. -/
def setLegacyGroup (ug : UserGroups) (g : LegacyGroupInfo) : UserGroups :=
  if validSessionId g.session_id then
    if ug.convos.any (fun cv => legacyMatch cv g.session_id) then
      ⟨ug.convos.map (fun cv => if legacyMatch cv g.session_id then .legacy g else cv)⟩
    else ⟨ug.convos ++ [.legacy g]⟩
  else ug

/-- Modelled from the spec: `user_groups_erase_legacy_group`. -/
def eraseLegacyGroup (ug : UserGroups) (id : String) : Bool × UserGroups :=
  (ug.convos.any (fun cv => legacyMatch cv id),
   ⟨ug.convos.filter (fun cv => !(legacyMatch cv id))⟩)

/-- Modelled from `user_groups_size`: the number of conversations. -/
def userGroupsSize (ug : UserGroups) : Nat := ug.convos.length

/-- Modelled from `user_groups_size_communities`. -/
def userGroupsSizeCommunities (ug : UserGroups) : Nat :=
  (ug.convos.filter Convo.isCommunity).length

/-- Modelled from `user_groups_size_legacy_groups`. -/
def userGroupsSizeLegacyGroups (ug : UserGroups) : Nat :=
  (ug.convos.filter Convo.isLegacy).length

/-- The user-groups config states reachable from a fresh (empty) object
through the mutating interface surface. -/
inductive Reachable : UserGroups → Prop where
  | init : Reachable ⟨[]⟩
  | setComm (ug : UserGroups) (c : CommunityInfo) :
      Reachable ug → Reachable (setCommunity ug c)
  | setLegacy (ug : UserGroups) (g : LegacyGroupInfo) :
      Reachable ug → Reachable (setLegacyGroup ug g)
  | eraseComm (ug : UserGroups) (burl room : String) :
      Reachable ug → Reachable (eraseCommunity ug burl room).2
  | eraseLegacy (ug : UserGroups) (id : String) :
      Reachable ug → Reachable (eraseLegacyGroup ug id).2

/-- The §8 example community record: stored with a non-normalized base url
and a capitalized room token. -/
def exampleCommunity : CommunityInfo :=
  ⟨"https://Example.com:443/", "Room", List.replicate 32 7, 0, 0, 0, 0⟩

/-- C3: community normalization.  After inserting a record via `set()` with
`base_url = "https://Example.com:443/"` and `room = "Room"`, the record is
retrievable via `get("example.com", "room")` and via
`get("example.com", "ROOM")`, and in both cases the returned record's room
field is the stored `"Room"` (base url normalized for lookup; room looked up
case-insensitively but returned with its stored case). -/
theorem community_normalization_roundtrip :
    ((getCommunity (setCommunity ⟨[]⟩ exampleCommunity) "example.com" "room").map
        CommunityInfo.room = some "Room") ∧
    ((getCommunity (setCommunity ⟨[]⟩ exampleCommunity) "example.com" "ROOM").map
        CommunityInfo.room = some "Room") := by
  constructor <;> decide

theorem legacyIdsValid_setCommunity (ug : UserGroups) (c : CommunityInfo)
    (ih : ∀ g, Convo.legacy g ∈ ug.convos → validSessionId g.session_id = true) :
    ∀ g, Convo.legacy g ∈ (setCommunity ug c).convos →
      validSessionId g.session_id = true := by
  intro g hg
  unfold setCommunity at hg
  by_cases hany :
      (ug.convos.any fun cv =>
        commKeyMatch cv (normalizeCommunity c).base_url
          (lowerStr (normalizeCommunity c).room)) = true
  · rw [if_pos hany] at hg
    simp only [List.mem_map] at hg
    obtain ⟨cv, hcv, heq⟩ := hg
    by_cases hm : commKeyMatch cv (normalizeCommunity c).base_url
        (lowerStr (normalizeCommunity c).room) = true
    · rw [if_pos hm] at heq
      exact absurd heq (by simp)
    · rw [if_neg hm] at heq
      subst heq
      exact ih g hcv
  · rw [if_neg hany] at hg
    simp only [List.mem_append] at hg
    rcases hg with hg | hg
    · exact ih g hg
    · simp at hg

theorem legacyIdsValid_setLegacyGroup (ug : UserGroups) (g0 : LegacyGroupInfo)
    (ih : ∀ g, Convo.legacy g ∈ ug.convos → validSessionId g.session_id = true) :
    ∀ g, Convo.legacy g ∈ (setLegacyGroup ug g0).convos →
      validSessionId g.session_id = true := by
  intro g hg
  unfold setLegacyGroup at hg
  by_cases hv : validSessionId g0.session_id = true
  · rw [if_pos hv] at hg
    by_cases hany : (ug.convos.any fun cv => legacyMatch cv g0.session_id) = true
    · rw [if_pos hany] at hg
      simp only [List.mem_map] at hg
      obtain ⟨cv, hcv, heq⟩ := hg
      by_cases hm : legacyMatch cv g0.session_id = true
      · rw [if_pos hm] at heq
        have : g = g0 := by
          have := heq
          simp only [Convo.legacy.injEq] at this
          exact this.symm
        subst this
        exact hv
      · rw [if_neg hm] at heq
        subst heq
        exact ih g hcv
    · rw [if_neg hany] at hg
      simp only [List.mem_append] at hg
      rcases hg with hg | hg
      · exact ih g hg
      · simp only [List.mem_singleton, Convo.legacy.injEq] at hg
        subst hg
        exact hv
  · rw [if_neg hv] at hg
    exact ih g hg

theorem legacyIdsValid_filter (l : List Convo) (p : Convo → Bool)
    (ih : ∀ g, Convo.legacy g ∈ l → validSessionId g.session_id = true) :
    ∀ g, Convo.legacy g ∈ l.filter p → validSessionId g.session_id = true := by
  intro g hg
  exact ih g (List.mem_of_mem_filter hg)

/-- C7: legacy-group identifier validation.  Every legacy group record in a
reachable store carries a session id satisfying the fixed hex-identifier
format — a record cannot be constructed or stored and a member cannot be
added under an invalid identifier, so invalid identifiers never enter the
store; in particular, `get_or_construct` for a legacy group returns NULL
exactly when the given id is invalid. -/
theorem legacy_group_id_validation :
    (∀ ug, Reachable ug →
      ∀ g, Convo.legacy g ∈ ug.convos → validSessionId g.session_id = true) ∧
    (∀ ug id, getOrConstructLegacyGroup ug id = none ↔ validSessionId id = false) ∧
    (∀ g sid adm, validSessionId sid = false → memberAdd g sid adm = (false, g)) := by
  refine ⟨?_, ?_, ?_⟩
  · intro ug hr
    induction hr with
    | init => intro g hg; simp at hg
    | setComm ug c _ ih => exact legacyIdsValid_setCommunity ug c ih
    | setLegacy ug g0 _ ih => exact legacyIdsValid_setLegacyGroup ug g0 ih
    | eraseComm ug burl room _ ih => exact legacyIdsValid_filter ug.convos _ ih
    | eraseLegacy ug id _ ih => exact legacyIdsValid_filter ug.convos _ ih
  · intro ug id
    unfold getOrConstructLegacyGroup
    by_cases hv : validSessionId id = true
    · rw [if_pos hv]
      simp [hv]
    · rw [if_neg hv]
      simp only [Bool.not_eq_true] at hv
      simp [hv]
  · intro g sid adm hv
    unfold memberAdd
    rw [if_neg (by simp [hv])]

theorem legacy_group_id_validation_witness :
    getOrConstructLegacyGroup ⟨[]⟩ "not-a-valid-group-id" = none :=
  (legacy_group_id_validation.2.1 ⟨[]⟩ "not-a-valid-group-id").mpr (by decide)

/-- C8: community `get_or_construct` contract.  For every store and inputs,
it agrees with `get` whenever a record exists (the same normalized,
case-insensitive lookup), and when no record exists it returns the fresh,
not-yet-persisted value with normalized base url, the room exactly as
given, `priority = 0`, `joined_at = 0`, default notifications and
`mute_until = 0`; as a pure function of a `const` store it leaves the
registry unchanged until an explicit `set()`. -/
theorem community_get_or_construct_contract (ug : UserGroups)
    (burl room : String) (pk : List Nat) :
    (∀ c, getCommunity ug burl room = some c →
      getOrConstructCommunity ug burl room pk = c) ∧
    (getCommunity ug burl room = none →
      getOrConstructCommunity ug burl room pk =
        ⟨normalizeBaseUrl burl, room, pk, 0, 0, defaultNotifyMode, 0⟩) := by
  unfold getCommunity getOrConstructCommunity
  constructor
  · intro c h
    rw [h]
  · intro h
    rw [h]

theorem community_get_or_construct_contract_witness :
    getOrConstructCommunity ⟨[]⟩ "example.com" "Room" [] =
      ⟨normalizeBaseUrl "example.com", "Room", [], 0, 0, defaultNotifyMode, 0⟩ :=
  (community_get_or_construct_contract ⟨[]⟩ "example.com" "Room" []).2 rfl

theorem size_partition_list (l : List Convo) :
    l.length = (l.filter Convo.isCommunity).length + (l.filter Convo.isLegacy).length := by
  induction l with
  | nil => simp
  | cons cv l ih =>
    cases cv <;> simp [List.filter_cons, Convo.isCommunity, Convo.isLegacy] <;> omega

/-- C9: for every store — hence for every reachable state, before and after
any operation — the total conversation count equals the number of community
conversations plus the number of legacy-group conversations. -/
theorem user_groups_size_partition (ug : UserGroups) :
    userGroupsSize ug = userGroupsSizeCommunities ug + userGroupsSizeLegacyGroups ug := by
  unfold userGroupsSize userGroupsSizeCommunities userGroupsSizeLegacyGroups
  exact size_partition_list ug.convos
